import Mathlib

/-!
Shallow embedding of the keccak256 circuit gadgets of this repository
(keccak256/src/gates/mixing.rs, pi.rs, rho_checks.rs, absorb.rs and
keccak256/src/circuit.rs), together with proofs about the polynomial
identities the gadgets register.

Conventions of the embedding:
* a prime field is modelled as `ZMod p` with `p` prime (gate-level facts that
  hold in any commutative ring are stated over a general `CommRing`/`Field`);
* a gate that registers the polynomial `q * e` on a region row is modelled as
  the proposition `q * e = 0` over the witnessed cell values of that row;
* a column queried at `Rotation::cur/next/prev` on consecutive region rows is
  modelled as a function `ℕ → F` (or `Fin 25 → F` for a 25-lane state row);
* lookup arguments are modelled as membership of the witnessed tuple in the
  (mathematical) table relation;
* constants and helpers that live in files of this repository that are not
  part of the provided sources (common.rs, arith_helpers.rs, rho_helpers.rs,
  tables.rs) are modelled from the specification; each such definition carries
  a doc comment saying so.
-/

namespace KeccakCircuit

/-- Modelled from the spec: number of rounds of Keccak-f (common.rs
`PERMUTATION` is not among the sources; the spec fixes 24 rounds, the last of
which is the Mixing step). -/
def PERMUTATION : ℕ := 24

/-- Modelled from the spec: number of next-input (rate) lanes absorbed per
block (common.rs `ABSORB_NEXT_INPUTS` is not among the sources; the spec fixes
the rate portion at 17 lanes). -/
def ABSORB_NEXT_INPUTS : ℕ := 17

/-- Modelled from the spec: the coefficient multiplying the next-input lane in
the absorb gate (arith_helpers.rs `A4` is not among the sources; the spec and
the comment block of absorb.rs state `out = in + 2 * next_input`). -/
def A4 : ℕ := 2

/-- Modelled from the spec: upper bound of the final step-2 block-count range
check (rho_helpers.rs `STEP2_RANGE` is not among the sources; the spec and the
gate name in rho_checks.rs fix the bound 12). -/
def STEP2_RANGE : ℕ := 12

/-- Modelled from the spec: upper bound of the final step-3 block-count range
check (rho_helpers.rs `STEP3_RANGE` is not among the sources; the spec and the
gate name in rho_checks.rs fix the bound 169 = 13 * 13). -/
def STEP3_RANGE : ℕ := 169

/-- Modelled from the spec: `OVERFLOW_TRANSFORM` of rho_helpers.rs (not among
the sources). The module documentation of rho_checks.rs states: it maps step 1
to 0, step 2 to 1, step 3 to 13, and step 4 to 170.  The argument here is the
number of significant chunks of a slice (0 meaning the all-zero slice). -/
def OVERFLOW_TRANSFORM : ℕ → ℕ
  | 0 => 0
  | 1 => 0
  | 2 => 1
  | 3 => 13
  | _ => 170

/-- Number of significant base-13 chunks of a 4-chunk slice: one plus the
highest index carrying a non-zero digit, and 0 for the all-zero slice.
Modelled from the spec / the module documentation of rho_checks.rs: a slice
witnessed with k non-zero chunks (k least such that all chunks from position k
on are zero) is charged `OVERFLOW_TRANSFORM k`. -/
def sigChunks (d : Fin 4 → ℕ) : ℕ :=
  if d 3 ≠ 0 then 4 else if d 2 ≠ 0 then 3 else if d 1 ≠ 0 then 2
  else if d 0 ≠ 0 then 1 else 0

/-- Block count charged by the `Base13toBase9` table for a 4-chunk slice. -/
def blockCountOf (d : Fin 4 → ℕ) : ℕ := OVERFLOW_TRANSFORM (sigChunks d)

/-- Modelled from the spec: single-digit base-13 to base-9 conversion
(arith_helpers.rs `convert_b13_coef` is not among the sources; the spec states
that the digit sum modulo 2 recovers the XOR bit). -/
def convert_b13_coef (x : ℕ) : ℕ := x % 2

/-- Value encoded by the 4 base-13 digits of a slice (digit i weighs 13^i). -/
def encodeB13 (d : Fin 4 → ℕ) : ℕ :=
  d 0 + 13 * d 1 + 13 ^ 2 * d 2 + 13 ^ 3 * d 3

/-- Base-9 output coefficient of a slice: each digit converted by
`convert_b13_coef`, digit i weighing 9^i. -/
def encodeB9 (d : Fin 4 → ℕ) : ℕ :=
  convert_b13_coef (d 0) + 9 * convert_b13_coef (d 1)
    + 9 ^ 2 * convert_b13_coef (d 2) + 9 ^ 3 * convert_b13_coef (d 3)

/-- One row of the per-chunk Rho conversion witness: the configure-time step
of the chunk (1..4, from `slice_lane`), the witnessed input and output
coefficient cells and the witnessed overflow-detector (block count) cell.
Cell values are recorded as the natural numbers they encode (all are table
values far below the field size). -/
structure RhoChunkRow where
  step : ℕ
  inputCoef : ℕ
  outputCoef : ℕ
  od : ℕ

/-- The `Base13toBase9` lookup of rho_checks.rs: the witnessed triple
(input coefficient, output coefficient, overflow detector) must be a row of
the table.  Modelled from the spec: tables.rs is not among the sources; the
table is built over the full 4-digit domain (every digit below 13), emitting
the base-9 conversion and the block count. -/
def chunkLookupOk (r : RhoChunkRow) : Prop :=
  ∃ d : Fin 4 → ℕ, (∀ i, d i < 13) ∧
    r.inputCoef = encodeB13 d ∧ r.outputCoef = encodeB9 d ∧ r.od = blockCountOf d

/-- Gate "block count step 1" of `BlockCountAccConfig` (rho_checks.rs): on
every row whose chunk has configure-time step 1 the block-count cell is
constrained to zero (`q_all * block_count = 0` with the selector on). -/
def step1GateOk (rows : List RhoChunkRow) : Prop :=
  ∀ r ∈ rows, r.step = 1 → r.od = 0

/-- Block counts of the step-2 chunks, in row order.  By the "first row" and
"Running up block count" gates of `BlockCountAccConfig`, the step-2
accumulator increases by the block count exactly on step-2 rows. -/
def step2Ods (rows : List RhoChunkRow) : List ℕ :=
  (rows.filter (fun r => r.step == 2)).map (fun r => r.od)

/-- Block counts of the step-3 chunks, in row order. -/
def step3Ods (rows : List RhoChunkRow) : List ℕ :=
  (rows.filter (fun r => r.step == 3)).map (fun r => r.od)

/-- Running total of the step-2 block counts across the witness. -/
def step2Total (rows : List RhoChunkRow) : ℕ := (step2Ods rows).sum

/-- Running total of the step-3 block counts across the witness. -/
def step3Total (rows : List RhoChunkRow) : ℕ := (step3Ods rows).sum

/-- Gate "sum" of `SumConfig` (rho_checks.rs): on every enabled row,
`sum_next - sum - x = 0`; `s` is the sum column, `x` the summed column. -/
def sumGateOk {F : Type} [CommRing F] (n : ℕ) (x s : ℕ → F) : Prop :=
  ∀ i < n, (s (i + 1) - s i) - x i = 0

/-- Gate "block count final check" of `BlockCountFinalConfig`
(rho_checks.rs): the product of `(acc - k)` for k running over `0..=bound`,
accumulated from the constant one exactly as the `fold` in the source. -/
def rangeCheckFold {F : Type} [CommRing F] (bound : ℕ) (acc : F) : F :=
  ((List.range (bound + 1)).map (fun k => acc - (k : ℕ))).foldl (· * ·) 1

/-- The step-2 polynomial of the final block-count check ("step2_acc <= 12"). -/
def step2RangePoly {F : Type} [CommRing F] (acc : F) : F :=
  rangeCheckFold STEP2_RANGE acc

/-- The step-3 polynomial of the final block-count check
("step3_acc <= 13 * 13"). -/
def step3RangePoly {F : Type} [CommRing F] (acc : F) : F :=
  rangeCheckFold STEP3_RANGE acc

/-- Satisfaction of the final block-count range-check gate on a row holding
the two accumulated totals (selector enabled). -/
def blockCountFinalOk {F : Type} [CommRing F] (s2 s3 : F) : Prop :=
  step2RangePoly s2 = 0 ∧ step3RangePoly s3 = 0

/-- Gate "Running down input" of `LaneRotateConversionConfig`
(rho_checks.rs): on every row where `q_normal` is enabled,
`acc_next - acc + coef * power_of_base = 0`. -/
def runningDownOk {F : Type} [CommRing F] (n : ℕ) (coef pob acc : ℕ → F) : Prop :=
  ∀ i < n, (acc (i + 1) - acc i) + coef i * pob i = 0

/-- Gate "Running up for output" of `LaneRotateConversionConfig`
(rho_checks.rs): on every row where the selector is enabled,
`acc_next - acc - coef * power_of_base = 0`. -/
def runningUpOk {F : Type} [CommRing F] (n : ℕ) (coef pob acc : ℕ → F) : Prop :=
  ∀ i < n, (acc (i + 1) - acc i) - coef i * pob i = 0

/-- Source index of the Pi re-indexing (pi.rs `assign_region`):
`idx = 5 * ((x + 3 * y) % 5) + x`. -/
def piSrcIdx (x y : Fin 5) : Fin 25 :=
  ⟨5 * ((x.val + 3 * y.val) % 5) + x.val, by
    have hx := x.isLt
    have hm : (x.val + 3 * y.val) % 5 < 5 := Nat.mod_lt _ (by norm_num)
    omega⟩

/-- Destination index of the Pi re-indexing (pi.rs): `idx_next = 5 * x + y`. -/
def piDstIdx (x y : Fin 5) : Fin 25 :=
  ⟨5 * x.val + y.val, by have hx := x.isLt; have hy := y.isLt; omega⟩

/-- The lane permutation realized by Pi: the output lane at position `5x + y`
is copy-constrained to the input lane at position `5 * ((x + 3y) % 5) + x`. -/
def piMap : Fin 25 → Fin 25 := fun i =>
  piSrcIdx ⟨i.val / 5, by have := i.isLt; omega⟩ ⟨i.val % 5, Nat.mod_lt _ (by norm_num)⟩

/-- Output state of the Pi step as a pure re-indexing of the input state:
pi.rs assigns no gate and no lookup, only `constrain_equal` between the
source cell and the destination cell. -/
def piPermute {F : Type} (s : Fin 25 → F) : Fin 25 → F := fun i => s (piMap i)

/-- Polynomial of the gate "Ensure flag consistency" (mixing.rs): the sum of
the consistency term `flag + negated_flag - 1` and the two booleanity terms
`(1 - flag) * flag` and `(1 - negated_flag) * negated_flag`, all added into a
single expression exactly as in the source. -/
def flagGatePoly {F : Type} [CommRing F] (flag negFlag : F) : F :=
  ((flag + negFlag) - 1) + ((1 - flag) * flag) + ((1 - negFlag) * negFlag)

/-- Satisfaction of the flag-consistency gate (selector `q_flag` times the
combined polynomial equals zero). -/
def flagGateOk {F : Type} [CommRing F] (q flag negFlag : F) : Prop :=
  q * flagGatePoly flag negFlag = 0

/-- The branch selection the specification prescribes for the Mixing output:
lane-wise `non_mixing * (1 - flag) + mixing * flag`. -/
def selectBranch {F : Type} [CommRing F] (flag : F) (nonMix mix : Fin 25 → F) :
    Fin 25 → F :=
  fun i => nonMix i * (1 - flag) + mix i * flag

/-- Gate "Mixing result copies and constraints" (mixing.rs): the single
registered polynomial queries only column `out_mixing[0]` (current row: the
non-mixing branch; next row: the mixing branch), the flag column and column
`state[0]` (the claimed output).  With the region layout of
`assign_out_mixing_states` this reads
`q * (nonMix 0 * negFlag + mix 0 * flag - out 0) = 0`. -/
def mixingResultGateOk {F : Type} [CommRing F] (q flag negFlag : F)
    (nonMix mix out : Fin 25 → F) : Prop :=
  q * ((nonMix 0 * negFlag + mix 0 * flag) - out 0) = 0

/-- Gate "absorb" (absorb.rs): for each `idx` below `ABSORB_NEXT_INPUTS` the
polynomial `q_mixing * flag * (state[idx]@prev + A4 * state[idx]@cur -
state[idx]@next)` is registered, where the flag is the cell
`state[ABSORB_NEXT_INPUTS]` of the current row.  `inS` is the state row at
`Rotation::prev`, `curS` the next-inputs/flag row at `Rotation::cur`, `outS`
the output state row at `Rotation::next`. -/
def absorbGateOk {F : Type} [CommRing F] (q : F) (inS curS outS : Fin 25 → F) : Prop :=
  ∀ idx : Fin 25, idx.val < ABSORB_NEXT_INPUTS →
    q * curS 17 * ((inS idx + (A4 : F) * curS idx) - outS idx) = 0

/-- Gate "Constraint out_state correctness" (circuit.rs): for every one of
the 25 lanes, `q_out * (state[idx]@cur - state[idx]@next) = 0`, where the
current row holds the mixing output (copy-constrained) and the next row the
externally claimed output state. -/
def outStateGateOk {F : Type} [CommRing F] (q : F) (outMixing outExpected : Fin 25 → F) :
    Prop :=
  ∀ idx : Fin 25, q * (outMixing idx - outExpected idx) = 0

/-- One non-final round of `KeccakFConfig::assign_all` (circuit.rs): Theta,
then Rho, then Pi, then Xi, then IotaB9 with the round constant of round `r`,
then the base-9 to base-13 conversion of the state.  The five sub-step
configurations live in files that are not among the sources, so they are
abstracted as functions on the state type. -/
def keccakRound {S : Type} (theta rho piStep xi : S → S) (iota : ℕ → S → S)
    (conv : S → S) (r : ℕ) (s : S) : S :=
  conv (iota r (xi (piStep (rho (theta s)))))

/-- The first `n` rounds applied in order: round `k` of `roundsUpTo n` uses
the round constant of index `k`, for `k = 0, ..., n - 1`. -/
def roundsUpTo {S : Type} (theta rho piStep xi : S → S) (iota : ℕ → S → S)
    (conv : S → S) : ℕ → S → S
  | 0, s => s
  | n + 1, s =>
      keccakRound theta rho piStep xi iota conv n
        (roundsUpTo theta rho piStep xi iota conv n s)

/-- Control flow of `KeccakFConfig::assign_all` (circuit.rs): the loop
`for round in 0..PERMUTATION - 1` threads the state through one
`keccakRound` per iteration, and the Mixing step runs once afterwards. -/
def assign_all {S : Type} (theta rho piStep xi : S → S) (iota : ℕ → S → S)
    (conv : S → S) (mixing : S → S) (s : S) : S :=
  mixing ((List.range (PERMUTATION - 1)).foldl
    (fun st r => keccakRound theta rho piStep xi iota conv r st) s)

/-- Modelled from the spec: arith_helpers.rs `convert_b2_to_b9` is not among
the sources; the spec defines the base-B representation of a 64-bit word as
the mixed-radix sum of its bits, so the base-2 digits (bits) are re-weighted
with powers of 9. -/
def convert_b2_to_b9 (v : ℕ) : ℕ :=
  ∑ i in Finset.range 64, (v / 2 ^ i % 2) * 9 ^ i

/-- The (x, y) pairs whose next-input lane the loop in
`AbsorbConfig::assign_next_inp_and_flag` (absorb.rs) converts to base 9: the
cartesian product (0..5) x (0..5) in row-major order, cut short by the
`break` that fires at the first pair with `x >= 3 && y >= 1`. -/
def absorbConvPairs : List (ℕ × ℕ) :=
  ((List.range 5).flatMap (fun x => (List.range 5).map (fun y => (x, y)))).takeWhile
    (fun q => decide (¬ (3 ≤ q.1 ∧ 1 ≤ q.2)))

/-- The 17 next-input lane values witnessed by
`AbsorbConfig::assign_next_inp_and_flag` (absorb.rs): lane `(x, y)` (array
index `5 * x + y`) is converted to base 9 exactly when the conversion loop
reaches it before breaking. -/
def assign_next_input_b9 (next : Fin 17 → ℕ) : Fin 17 → ℕ :=
  fun i => if (i.val / 5, i.val % 5) ∈ absorbConvPairs then convert_b2_to_b9 (next i)
    else next i

instance : Fact (Nat.Prime 65537) := ⟨by norm_num⟩

/-- Concrete one-chunk instance for the Rho accumulator gates: the constant
coefficient column (value 1). -/
def ceOne : ℕ → ZMod 65537 := fun _ => 1

/-- Concrete instance: the power-of-base fixed column, 13^1 on the single
normal row (chunk position 1). -/
def cePob : ℕ → ZMod 65537 := fun _ => 13

/-- Concrete instance: chunk position of the single normal row. -/
def cePos : ℕ → ℕ := fun _ => 1

/-- Concrete instance: the input accumulator column for the base-13 lane
value 18 = 5 + 13 * 1 (low special digit 5, normal chunk digit 1). -/
def ceAccIn : ℕ → ZMod 65537 := fun i => if i = 0 then 18 else 5

/-- Concrete instance: the output accumulator column, seeded at zero. -/
def ceAccOut : ℕ → ZMod 65537 := fun i => if i = 0 then 0 else 13

/-! Helper lemmas. -/

lemma rangeCheckFold_eq_prod {F : Type} [CommRing F] (bound : ℕ) (acc : F) :
    rangeCheckFold bound acc
      = ((List.range (bound + 1)).map (fun k => acc - (k : ℕ))).prod := by
  rw [rangeCheckFold, List.prod_eq_foldl]

lemma rangeCheckFold_eq_zero_iff {F : Type} [Field F] (bound : ℕ) (acc : F) :
    rangeCheckFold bound acc = 0 ↔ ∃ k : ℕ, k ≤ bound ∧ acc = (k : F) := by
  rw [rangeCheckFold_eq_prod, List.prod_eq_zero_iff]
  constructor
  · intro h
    obtain ⟨k, hk, he⟩ := List.mem_map.mp h
    exact ⟨k, Nat.lt_succ_iff.mp (List.mem_range.mp hk), sub_eq_zero.mp he⟩
  · rintro ⟨k, hk, rfl⟩
    refine List.mem_map.mpr ⟨k, List.mem_range.mpr (Nat.lt_succ_iff.mpr hk), ?_⟩
    exact sub_self _

lemma sigChunks_le_four (d : Fin 4 → ℕ) : sigChunks d ≤ 4 := by
  unfold sigChunks
  split_ifs <;> omega

lemma lt_sigChunks_of_digit (d : Fin 4 → ℕ) (j : ℕ) (hj : j < 4)
    (h : d ⟨j, hj⟩ ≠ 0) : j < sigChunks d := by
  unfold sigChunks
  interval_cases j
  · have h0 : d 0 ≠ 0 := h
    split_ifs <;> omega
  · have h1 : d 1 ≠ 0 := h
    split_ifs <;> omega
  · have h2 : d 2 ≠ 0 := h
    split_ifs <;> omega
  · have h3 : d 3 ≠ 0 := h
    split_ifs <;> omega

lemma overflowTransform_le (s : ℕ) : OVERFLOW_TRANSFORM s ≤ 170 := by
  rcases s with _ | _ | _ | _ | s <;> simp [OVERFLOW_TRANSFORM]

lemma overflowTransform_of_two_le (s : ℕ) (h2 : 2 ≤ s) (h4 : s ≤ 4) :
    OVERFLOW_TRANSFORM s = 1 ∨ OVERFLOW_TRANSFORM s = 13 ∨ OVERFLOW_TRANSFORM s = 170 := by
  interval_cases s <;> decide

lemma overflowTransform_ge_of_three_le (s : ℕ) (h3 : 3 ≤ s) (h4 : s ≤ 4) :
    13 ≤ OVERFLOW_TRANSFORM s := by
  interval_cases s <;> decide

lemma encodeB13_digits_unique (d e : Fin 4 → ℕ) (hd : ∀ i, d i < 13)
    (he : ∀ i, e i < 13) (h : encodeB13 d = encodeB13 e) :
    d 0 = e 0 ∧ d 1 = e 1 ∧ d 2 = e 2 ∧ d 3 = e 3 := by
  have hd0 := hd 0; have hd1 := hd 1; have hd2 := hd 2; have hd3 := hd 3
  have he0 := he 0; have he1 := he 1; have he2 := he 2; have he3 := he 3
  unfold encodeB13 at h
  norm_num at h
  omega

lemma blockCountOf_congr (d e : Fin 4 → ℕ) (h0 : d 0 = e 0) (h1 : d 1 = e 1)
    (h2 : d 2 = e 2) (h3 : d 3 = e 3) : blockCountOf d = blockCountOf e := by
  unfold blockCountOf sigChunks
  rw [h0, h1, h2, h3]

lemma sigChunks_congr (d e : Fin 4 → ℕ) (h0 : d 0 = e 0) (h1 : d 1 = e 1)
    (h2 : d 2 = e 2) (h3 : d 3 = e 3) : sigChunks d = sigChunks e := by
  unfold sigChunks
  rw [h0, h1, h2, h3]

lemma od_le_170_of_lookup (r : RhoChunkRow) (h : chunkLookupOk r) : r.od ≤ 170 := by
  obtain ⟨e, _, _, _, hod⟩ := h
  rw [hod]
  unfold blockCountOf
  exact overflowTransform_le _

lemma natCast_rangeCheckFold_ne_zero (p : ℕ) [Fact (Nat.Prime p)]
    (bound t : ℕ) (hbound : bound < t) (ht : t < p) :
    rangeCheckFold bound ((t : ℕ) : ZMod p) ≠ 0 := by
  intro hzero
  obtain ⟨k, hk, hcast⟩ := (rangeCheckFold_eq_zero_iff bound _).mp hzero
  have hkp : k < p := by omega
  have hv := congrArg ZMod.val hcast
  rw [ZMod.val_cast_of_lt ht, ZMod.val_cast_of_lt hkp] at hv
  omega

/-! Claim theorems. -/

/-- C4: the final block-count range-check gate is a zero-polynomial test: over
the field, the step-2 product vanishes exactly when the accumulator is one of
the values 0..12, and the step-3 product exactly when it is one of 0..169. -/
theorem block_count_final_range_characterization (F : Type) [Field F] :
    (∀ acc : F, step2RangePoly acc = 0 ↔ ∃ k : ℕ, k ≤ 12 ∧ acc = (k : F))
    ∧ (∀ acc : F, step3RangePoly acc = 0 ↔ ∃ k : ℕ, k ≤ 169 ∧ acc = (k : F)) := by
  constructor
  · intro acc
    simpa [step2RangePoly, STEP2_RANGE] using rangeCheckFold_eq_zero_iff 12 acc
  · intro acc
    simpa [step3RangePoly, STEP3_RANGE] using rangeCheckFold_eq_zero_iff 169 acc

/-- C9: the out-state correctness gate forces, lane by lane, the mixing
output to equal the externally claimed output state in all 25 lanes. -/
theorem out_state_gate_forces_all_lanes (F : Type) [CommRing F]
    (outMixing outExpected : Fin 25 → F) :
    outStateGateOk 1 outMixing outExpected ↔
      ∀ idx : Fin 25, outMixing idx = outExpected idx := by
  simp [outStateGateOk, sub_eq_zero]

lemma piMap_piDstIdx : ∀ x y : Fin 5, piMap (piDstIdx x y) = piSrcIdx x y := by
  decide

/-- C7: the Pi step copies the lane at input position 5((x+3y) mod 5) + x to
output position 5x + y, and this index map is a bijection of the 25 lane
positions, so the output state is a pure re-ordering of the input lanes. -/
theorem pi_reindexing_is_permutation :
    Function.Bijective piMap
    ∧ ∀ (F : Type) (s : Fin 25 → F) (x y : Fin 5),
        piPermute s (piDstIdx x y) = s (piSrcIdx x y) := by
  refine ⟨⟨by decide, by decide⟩, ?_⟩
  intro F s x y
  unfold piPermute
  rw [piMap_piDstIdx]

/-- C3 (code bug): the flag-consistency gate adds the three intended
conditions into a single polynomial, and the cross terms cancel: the witness
pair flag = 1, negated_flag = 2 satisfies the gate although negated_flag is
not Boolean and the pair does not sum to one. -/
theorem flag_gate_accepts_inconsistent_pair :
    flagGateOk (1 : ZMod 7) 1 2
    ∧ ¬ ((2 : ZMod 7) = 0 ∨ (2 : ZMod 7) = 1)
    ∧ (1 + 2 : ZMod 7) ≠ 1 := by
  simp only [flagGateOk, flagGatePoly]
  decide

/-- C2 (code bug): the Mixing result gate only binds lane 0.  With the fully
honest flag pair (flag = 0, negated flag = 1) and both branches equal to the
all-zero state, a claimed output state whose lane 1 equals 1 still satisfies
the registered polynomial, although lane 1 differs from the flag-selected
branch value. -/
theorem mixing_result_gate_unconstrained_lanes :
    flagGateOk (1 : ZMod 7) 0 1
    ∧ mixingResultGateOk (1 : ZMod 7) 0 1 (fun _ => 0) (fun _ => 0)
        (fun i => if i = 1 then 1 else 0)
    ∧ (fun i : Fin 25 => if i = 1 then (1 : ZMod 7) else 0) 1
        ≠ selectBranch (0 : ZMod 7) (fun _ => 0) (fun _ => 0) 1 := by
  simp only [flagGateOk, flagGatePoly, mixingResultGateOk, selectBranch]
  decide

/-- C10 (code bug): the conversion loop of assign_next_inp_and_flag breaks at
(x, y) = (3, 1), so the rate lane with index 16 is witnessed with its raw
base-2 value (2 stays 2) although its base-9 conversion is 9; the sixteen
lanes of lower index are converted. -/
theorem next_input_lane16_not_converted :
    assign_next_input_b9 (fun i => if i.val = 16 then 2 else 0) ⟨16, by norm_num⟩ = 2
    ∧ convert_b2_to_b9 2 = 9
    ∧ ((3, 1) ∉ absorbConvPairs)
    ∧ ∀ i : Fin 17, i.val < 16 → (i.val / 5, i.val % 5) ∈ absorbConvPairs := by
  decide

lemma roundsUpTo_eq_foldl {S : Type} (theta rho piStep xi : S → S)
    (iota : ℕ → S → S) (conv : S → S) :
    ∀ (n : ℕ) (s : S),
      (List.range n).foldl
          (fun st r => keccakRound theta rho piStep xi iota conv r st) s
        = roundsUpTo theta rho piStep xi iota conv n s := by
  intro n
  induction n with
  | zero => intro s; rfl
  | succ n ih =>
      intro s
      rw [List.range_succ, List.foldl_append]
      simp only [List.foldl_cons, List.foldl_nil]
      rw [ih]
      rfl

/-- C8: assign_all applies exactly PERMUTATION - 1 = 23 rounds, round k
being Theta, Rho, Pi, Xi, IotaB9 with the round constant of index k, then
the base conversion, and runs the Mixing step exactly once afterwards. -/
theorem keccak_f_round_structure {S : Type} (theta rho piStep xi : S → S)
    (iota : ℕ → S → S) (conv : S → S) (mixing : S → S) (s : S) :
    PERMUTATION - 1 = 23
    ∧ assign_all theta rho piStep xi iota conv mixing s
        = mixing (roundsUpTo theta rho piStep xi iota conv 23 s)
    ∧ roundsUpTo theta rho piStep xi iota conv 23 s
        = keccakRound theta rho piStep xi iota conv 22
            (roundsUpTo theta rho piStep xi iota conv 22 s) := by
  refine ⟨rfl, ?_, rfl⟩
  unfold assign_all
  exact congrArg mixing (roundsUpTo_eq_foldl theta rho piStep xi iota conv 23 s)

/-- C6: with the selector on, a witnessed flag of 1 forces
`out = in + 2 * next_input` on each of the 17 rate lanes; a witnessed flag of
0 makes the gate inert (satisfied by every witness); and satisfaction of the
gate never depends on the input or output lanes 17..24. -/
theorem absorb_gate_rate_lanes (F : Type) [CommRing F]
    (inS curS outS : Fin 25 → F) :
    (curS 17 = 1 →
      (absorbGateOk 1 inS curS outS ↔
        ∀ idx : Fin 25, idx.val < 17 → outS idx = inS idx + 2 * curS idx))
    ∧ (curS 17 = 0 → absorbGateOk 1 inS curS outS)
    ∧ (∀ inT outT : Fin 25 → F,
        (∀ idx : Fin 25, idx.val < 17 → inS idx = inT idx ∧ outS idx = outT idx) →
        (absorbGateOk 1 inS curS outS ↔ absorbGateOk 1 inT curS outT)) := by
  refine ⟨?_, ?_, ?_⟩
  · intro hflag
    unfold absorbGateOk
    rw [hflag]
    constructor
    · intro h idx hidx
      have h1 := h idx hidx
      have h2 : (inS idx + (A4 : F) * curS idx) - outS idx = 0 := by
        simpa using h1
      have h3 := sub_eq_zero.mp h2
      rw [← h3]
      norm_num [A4]
    · intro h idx hidx
      have h1 := h idx hidx
      rw [h1]
      norm_num [A4]
  · intro hflag
    unfold absorbGateOk
    rw [hflag]
    intro idx hidx
    ring
  · intro inT outT hagree
    unfold absorbGateOk
    constructor
    · intro h idx hidx
      rw [← (hagree idx hidx).1, ← (hagree idx hidx).2]
      exact h idx hidx
    · intro h idx hidx
      rw [(hagree idx hidx).1, (hagree idx hidx).2]
      exact h idx hidx

/-- C6 witness: the inert case evaluated at a concrete witness whose flag
cell is zero and whose other cells are arbitrary non-matching values. -/
theorem absorb_gate_rate_lanes_witness :
    ((fun _ : Fin 25 => (0 : ZMod 7)) 17 = 0)
    ∧ absorbGateOk 1 (fun _ => 3) (fun _ : Fin 25 => (0 : ZMod 7)) (fun _ => 5) :=
  ⟨rfl,
    (absorb_gate_rate_lanes (ZMod 7) (fun _ => 3) (fun _ => 0) (fun _ => 5)).2.1 rfl⟩

/-- C5 counterexample: a one-chunk witness satisfying every registered
constraint of the lane conversion (running-down gate, running-up gate, the
lane copy-constraint on the first input accumulator cell, the constant-zero
constraint on the first output accumulator cell, and the power-of-base fixed
column holding 13^position on the normal row — the same fixed values are
assigned to the input and to the output power-of-base columns in the source),
on which the input accumulator does not terminate at zero after the final
normal chunk, and the output accumulator does not advance by
`output_coef * 9^position`. -/
theorem rho_accumulator_claim_false_at_instance :
    runningDownOk 1 ceOne cePob ceAccIn
    ∧ ceAccIn 0 = 18
    ∧ (∀ i, i < 1 → cePob i = (13 : ZMod 65537) ^ cePos i)
    ∧ runningUpOk 1 ceOne cePob ceAccOut
    ∧ ceAccOut 0 = 0
    ∧ ceAccIn 1 ≠ 0
    ∧ ceAccOut 1 ≠ ceAccOut 0 + ceOne 0 * (9 : ZMod 65537) ^ cePos 0 := by
  simp only [runningDownOk, runningUpOk, ceOne, cePob, cePos, ceAccIn, ceAccOut]
  refine ⟨?_, by decide, ?_, ?_, by decide, by decide, by decide⟩
  · intro i hi
    interval_cases i
    decide
  · intro i hi
    decide
  · intro i hi
    interval_cases i
    decide

/-- C5 (amended): the running-down gate drives the input accumulator from the
lane value down to the special-chunk remainder
`lane - Σ input_coef * power_of_base`, and the running-up gate drives the
output accumulator from the constant zero up to
`Σ output_coef * power_of_base`, where both columns step by the same witnessed
power-of-base fixed column. -/
theorem rho_accumulator_running_sums (F : Type) [CommRing F] (n : ℕ) (lane : F)
    (coef pob acc ocoef oacc : ℕ → F)
    (hdown : runningDownOk n coef pob acc) (hlane : acc 0 = lane)
    (hup : runningUpOk n ocoef pob oacc) (hzero : oacc 0 = 0) :
    acc n = lane - ∑ i in Finset.range n, coef i * pob i
    ∧ oacc n = ∑ i in Finset.range n, ocoef i * pob i := by
  constructor
  · have key : ∀ m, m ≤ n → acc m = lane - ∑ i in Finset.range m, coef i * pob i := by
      intro m
      induction m with
      | zero => intro _; simpa using hlane
      | succ m ih =>
          intro hm
          have h1 := hdown m (by omega)
          have h2 := ih (by omega)
          rw [Finset.sum_range_succ]
          have h3 : acc (m + 1) = acc m - coef m * pob m := by
            linear_combination h1
          rw [h3, h2]
          ring
    exact key n le_rfl
  · have key : ∀ m, m ≤ n → oacc m = ∑ i in Finset.range m, ocoef i * pob i := by
      intro m
      induction m with
      | zero => intro _; simpa using hzero
      | succ m ih =>
          intro hm
          have h1 := hup m (by omega)
          have h2 := ih (by omega)
          rw [Finset.sum_range_succ]
          have h3 : oacc (m + 1) = oacc m + ocoef m * pob m := by
            linear_combination h1
          rw [h3, h2]
    exact key n le_rfl

/-- C5 witness: the amended statement applied to the concrete one-chunk
instance (the input accumulator ends at the nonzero special-chunk remainder
18 - 13 = 5, the output accumulator at 13). -/
theorem rho_accumulator_running_sums_witness :
    runningDownOk 1 ceOne cePob ceAccIn
    ∧ ceAccIn 0 = 18
    ∧ runningUpOk 1 ceOne cePob ceAccOut
    ∧ ceAccOut 0 = 0
    ∧ ceAccIn 1 = 18 - ∑ i in Finset.range 1, ceOne i * cePob i
    ∧ ceAccOut 1 = ∑ i in Finset.range 1, ceOne i * cePob i := by
  have hdown : runningDownOk 1 ceOne cePob ceAccIn := by
    simp only [runningDownOk, ceOne, cePob, ceAccIn]
    intro i hi
    interval_cases i
    decide
  have hlane : ceAccIn 0 = 18 := by decide
  have hup : runningUpOk 1 ceOne cePob ceAccOut := by
    simp only [runningUpOk, ceOne, cePob, ceAccOut]
    intro i hi
    interval_cases i
    decide
  have hzero : ceAccOut 0 = 0 := by decide
  have h := rho_accumulator_running_sums (ZMod 65537) 1 18 ceOne cePob ceAccIn
    ceOne ceAccOut hdown hlane hup hzero
  exact ⟨hdown, hlane, hup, hzero, h.1, h.2⟩

/-- C1 counterexample: a step-1 chunk witnessed with a nonzero second digit
(digits 0,1,0,0; input coefficient 13).  The lookup charges it block count 1,
but since step-1 block counts enter neither the step-2 nor the step-3 running
total, both totals stay 0 and the final block-count range check is satisfied
(it does not fail, contrary to the claim; the witness is rejected by the
dedicated step-1 gate instead). -/
theorem rho_step1_overflow_passes_final_check :
    (∀ q ∈ [RhoChunkRow.mk 1 13 9 1], chunkLookupOk q)
    ∧ (RhoChunkRow.mk 1 13 9 1).inputCoef = encodeB13 ![0, 1, 0, 0]
    ∧ (∀ i, (![0, 1, 0, 0] : Fin 4 → ℕ) i < 13)
    ∧ (RhoChunkRow.mk 1 13 9 1).step ≤ (1 : Fin 4).val
    ∧ (![0, 1, 0, 0] : Fin 4 → ℕ) 1 ≠ 0
    ∧ step2Total [RhoChunkRow.mk 1 13 9 1] = 0
    ∧ step3Total [RhoChunkRow.mk 1 13 9 1] = 0
    ∧ blockCountFinalOk
        ((step2Total [RhoChunkRow.mk 1 13 9 1] : ℕ) : ZMod 65537)
        ((step3Total [RhoChunkRow.mk 1 13 9 1] : ℕ) : ZMod 65537) := by
  have h2 : step2Total [RhoChunkRow.mk 1 13 9 1] = 0 := by decide
  have h3 : step3Total [RhoChunkRow.mk 1 13 9 1] = 0 := by decide
  refine ⟨?_, by decide, by decide, by decide, by decide, h2, h3, ?_⟩
  · intro q hq
    have hq1 : q = RhoChunkRow.mk 1 13 9 1 := by
      simpa using hq
    refine ⟨![0, 1, 0, 0], by decide, ?_, ?_, ?_⟩ <;> rw [hq1] <;> decide
  · constructor
    · rw [h2]
      simp only [step2RangePoly, Nat.cast_zero]
      exact (rangeCheckFold_eq_zero_iff STEP2_RANGE 0).mpr
        ⟨0, by norm_num, by norm_num⟩
    · rw [h3]
      simp only [step3RangePoly, Nat.cast_zero]
      exact (rangeCheckFold_eq_zero_iff STEP3_RANGE 0).mpr
        ⟨0, by norm_num, by norm_num⟩

/-- C1 (amended): in every Rho witness in which some chunk of declared step s
(s at least 1) carries a nonzero base-13 digit at a position at or beyond s,
the lookup charges that chunk a block count of 1, 13 or 170; if s = 2 the
step-2 running total exceeds its bound 12 and the step-2 final range
polynomial does not vanish, if s = 3 the step-3 running total exceeds its
bound 169 and the step-3 final range polynomial does not vanish, and if s = 1
the dedicated step-1 gate (block count forced to zero) is violated; in every
case at least one registered constraint fails, so verification errors. -/
theorem rho_overflow_inflates_block_count (p : ℕ) [Fact (Nat.Prime p)]
    (rows : List RhoChunkRow)
    (hlk : ∀ q ∈ rows, chunkLookupOk q)
    (hp : 170 * rows.length < p)
    (r : RhoChunkRow) (hr : r ∈ rows) (hstep : 1 ≤ r.step)
    (d : Fin 4 → ℕ) (hd : ∀ i, d i < 13) (henc : r.inputCoef = encodeB13 d)
    (j : Fin 4) (hj : r.step ≤ j.val) (hnz : d j ≠ 0) :
    (r.od = 1 ∨ r.od = 13 ∨ r.od = 170)
    ∧ (r.step = 1 → ¬ step1GateOk rows)
    ∧ (r.step = 2 →
        STEP2_RANGE < step2Total rows
        ∧ step2RangePoly ((step2Total rows : ℕ) : ZMod p) ≠ 0)
    ∧ (r.step = 3 →
        STEP3_RANGE < step3Total rows
        ∧ step3RangePoly ((step3Total rows : ℕ) : ZMod p) ≠ 0)
    ∧ ¬ (step1GateOk rows
          ∧ blockCountFinalOk ((step2Total rows : ℕ) : ZMod p)
              ((step3Total rows : ℕ) : ZMod p)) := by
  obtain ⟨e, he, hie, _, hod⟩ := hlk r hr
  have hee : encodeB13 e = encodeB13 d := by rw [← hie, henc]
  obtain ⟨h0, h1, h2c, h3c⟩ := encodeB13_digits_unique e d he hd hee
  have hbc : r.od = blockCountOf d := by
    rw [hod]
    exact blockCountOf_congr e d h0 h1 h2c h3c
  have hsig_gt : j.val < sigChunks d := by
    have := lt_sigChunks_of_digit d j.val j.isLt hnz
    exact this
  have hsig_le : sigChunks d ≤ 4 := sigChunks_le_four d
  have h2le : 2 ≤ sigChunks d := by omega
  have hone : r.od = 1 ∨ r.od = 13 ∨ r.od = 170 := by
    rw [hbc]
    exact overflowTransform_of_two_le _ h2le hsig_le
  have hlen : 1 ≤ rows.length := List.length_pos_of_mem hr
  have hstep1 : r.step = 1 → ¬ step1GateOk rows := by
    intro hs1 hg
    have hzero := hg r hr hs1
    rcases hone with h | h | h <;> omega
  have hstep2 : r.step = 2 →
      STEP2_RANGE < step2Total rows
      ∧ step2RangePoly ((step2Total rows : ℕ) : ZMod p) ≠ 0 := by
    intro hs2
    have h13 : 13 ≤ r.od := by
      rw [hbc]
      unfold blockCountOf
      exact overflowTransform_ge_of_three_le _ (by omega) hsig_le
    have hmem : r.od ∈ step2Ods rows := by
      unfold step2Ods
      exact List.mem_map.mpr ⟨r, List.mem_filter.mpr ⟨hr, by simp [hs2]⟩, rfl⟩
    have hle : r.od ≤ step2Total rows := List.le_sum_of_mem hmem
    have hbound : step2Total rows ≤ 170 * rows.length := by
      have hmax : ∀ x ∈ step2Ods rows, x ≤ 170 := by
        intro x hx
        obtain ⟨q, hq, hxq⟩ := List.mem_map.mp hx
        rw [← hxq]
        exact od_le_170_of_lookup q (hlk q (List.mem_filter.mp hq).1)
      have hsum := List.sum_le_card_nsmul (step2Ods rows) 170 hmax
      rw [smul_eq_mul] at hsum
      have hlenf : (step2Ods rows).length ≤ rows.length := by
        unfold step2Ods
        rw [List.length_map]
        exact List.length_filter_le _ _
      unfold step2Total
      calc (step2Ods rows).sum ≤ (step2Ods rows).length * 170 := hsum
        _ ≤ rows.length * 170 := Nat.mul_le_mul_right _ hlenf
        _ = 170 * rows.length := by ring
    refine ⟨by unfold STEP2_RANGE; omega, ?_⟩
    simp only [step2RangePoly]
    exact natCast_rangeCheckFold_ne_zero p STEP2_RANGE (step2Total rows)
      (by unfold STEP2_RANGE; omega) (by omega)
  have hstep3 : r.step = 3 →
      STEP3_RANGE < step3Total rows
      ∧ step3RangePoly ((step3Total rows : ℕ) : ZMod p) ≠ 0 := by
    intro hs3
    have h170 : r.od = 170 := by
      have hsig4 : sigChunks d = 4 := by omega
      rw [hbc]
      unfold blockCountOf
      rw [hsig4]
      decide
    have hmem : r.od ∈ step3Ods rows := by
      unfold step3Ods
      exact List.mem_map.mpr ⟨r, List.mem_filter.mpr ⟨hr, by simp [hs3]⟩, rfl⟩
    have hle : r.od ≤ step3Total rows := List.le_sum_of_mem hmem
    have hbound : step3Total rows ≤ 170 * rows.length := by
      have hmax : ∀ x ∈ step3Ods rows, x ≤ 170 := by
        intro x hx
        obtain ⟨q, hq, hxq⟩ := List.mem_map.mp hx
        rw [← hxq]
        exact od_le_170_of_lookup q (hlk q (List.mem_filter.mp hq).1)
      have hsum := List.sum_le_card_nsmul (step3Ods rows) 170 hmax
      rw [smul_eq_mul] at hsum
      have hlenf : (step3Ods rows).length ≤ rows.length := by
        unfold step3Ods
        rw [List.length_map]
        exact List.length_filter_le _ _
      unfold step3Total
      calc (step3Ods rows).sum ≤ (step3Ods rows).length * 170 := hsum
        _ ≤ rows.length * 170 := Nat.mul_le_mul_right _ hlenf
        _ = 170 * rows.length := by ring
    refine ⟨by unfold STEP3_RANGE; omega, ?_⟩
    simp only [step3RangePoly]
    exact natCast_rangeCheckFold_ne_zero p STEP3_RANGE (step3Total rows)
      (by unfold STEP3_RANGE; omega) (by omega)
  refine ⟨hone, hstep1, hstep2, hstep3, ?_⟩
  rintro ⟨hg1, hfin⟩
  have hjle : j.val ≤ 3 := by omega
  have hstep_le : r.step ≤ 3 := le_trans hj hjle
  simp only [blockCountFinalOk] at hfin
  rcases Nat.lt_or_ge r.step 2 with hlt | hge
  · have hs1 : r.step = 1 := by omega
    exact hstep1 hs1 hg1
  · rcases Nat.lt_or_ge r.step 3 with hlt3 | hge3
    · have hs2 : r.step = 2 := by omega
      exact (hstep2 hs2).2 hfin.1
    · have hs3 : r.step = 3 := by omega
      exact (hstep3 hs3).2 hfin.2

/-- C1 witness: the amended statement applied to a concrete one-row witness
holding a step-2 chunk with digits 0,0,1,0 (three significant chunks): the
table charges block count 13, the step-2 total 13 exceeds the bound 12 and
the step-2 final range polynomial does not vanish over ZMod 65537. -/
theorem rho_overflow_inflates_block_count_witness :
    (∀ q ∈ [RhoChunkRow.mk 2 169 81 13], chunkLookupOk q)
    ∧ 170 * [RhoChunkRow.mk 2 169 81 13].length < 65537
    ∧ ((RhoChunkRow.mk 2 169 81 13).od = 1 ∨ (RhoChunkRow.mk 2 169 81 13).od = 13
        ∨ (RhoChunkRow.mk 2 169 81 13).od = 170)
    ∧ ((RhoChunkRow.mk 2 169 81 13).step = 2 →
        STEP2_RANGE < step2Total [RhoChunkRow.mk 2 169 81 13]
        ∧ step2RangePoly
            ((step2Total [RhoChunkRow.mk 2 169 81 13] : ℕ) : ZMod 65537) ≠ 0)
    ∧ ¬ (step1GateOk [RhoChunkRow.mk 2 169 81 13]
          ∧ blockCountFinalOk
              ((step2Total [RhoChunkRow.mk 2 169 81 13] : ℕ) : ZMod 65537)
              ((step3Total [RhoChunkRow.mk 2 169 81 13] : ℕ) : ZMod 65537)) := by
  have hlk : ∀ q ∈ [RhoChunkRow.mk 2 169 81 13], chunkLookupOk q := by
    intro q hq
    have hq1 : q = RhoChunkRow.mk 2 169 81 13 := by simpa using hq
    refine ⟨![0, 0, 1, 0], by decide, ?_, ?_, ?_⟩ <;> rw [hq1] <;> decide
  have h := rho_overflow_inflates_block_count 65537 [RhoChunkRow.mk 2 169 81 13]
    hlk (by norm_num) (RhoChunkRow.mk 2 169 81 13) (by simp) (by norm_num)
    ![0, 0, 1, 0] (by decide) (by decide) (2 : Fin 4) (by decide) (by decide)
  exact ⟨hlk, by norm_num, h.1, h.2.2.1, h.2.2.2.2⟩

end KeccakCircuit
